import Mathlib

/-!
Verification of the score-fusion and run-integrity subsystem of the
`ir_system` repository (files `ir_system/metrics.py` and `ir_system/utils.py`).

Modelling conventions (shallow embedding):
* Python floats are modelled by exact rationals `ℚ`; `float(x)` is the identity.
* Python dicts built by comprehensions over pair lists are modelled by the
  association list of the same pairs; lookup takes the LAST binding of a key,
  matching Python's later-assignment-wins semantics (`dlookup` below).
* Python's stable `list.sort(key=..., reverse=True)` is modelled by
  `List.insertionSort` with the corresponding total preorder: Mathlib's
  insertion sort is stable (ties keep their original relative order), which is
  exactly the guarantee of Python's sort, and a stable sorted permutation is
  unique, so the two agree.
* `Finset String` models a Python `set` of document ids.
-/

/-- Lookup in an association list with Python-dict semantics: the LAST
binding of a key wins (a dict comprehension over a pair list lets later
pairs overwrite earlier ones). -/
def dlookup (m : List (String × ℚ)) (d : String) : Option ℚ :=
  match m with
  | [] => none
  | p :: t =>
    match dlookup t d with
    | some v => some v
    | none => if p.1 = d then some p.2 else none

/-- `dict.get(d, dflt)` on the association-list model. -/
def dget (m : List (String × ℚ)) (d : String) (dflt : ℚ) : ℚ :=
  (dlookup m d).getD dflt

/-- Python `min` over a list of scores (0 on the empty list, which the code
never reaches because it guards nonemptiness first). -/
def listMin : List ℚ → ℚ
  | [] => 0
  | [x] => x
  | x :: y :: t => min x (listMin (y :: t))

/-- Python `max` over a list of scores (0 on the empty list, never reached). -/
def listMax : List ℚ → ℚ
  | [] => 0
  | [x] => x
  | x :: y :: t => max x (listMax (y :: t))

/-! ## Evaluator (`ir_system/metrics.py`)

`average_precision(ranked_docids, relevant_set)`:

```python
if not relevant_set:
    return 0.0
hit_count = 0
sum_prec = 0.0
for i, docid in enumerate(ranked_docids, start=1):
    if docid in relevant_set:
        hit_count += 1
        sum_prec += hit_count / i
return sum_prec / len(relevant_set)
```

The loop is embedded as `sumPrec`, carrying the 1-based position `i` and the
running hit count `h`. -/

/-- The loop of `average_precision`: position `i` (1-based), hit count `h`. -/
def sumPrec (rel : Finset String) : List String → ℕ → ℕ → ℚ
  | [], _, _ => 0
  | d :: ds, i, h =>
    if d ∈ rel then ((h + 1 : ℕ) : ℚ) / (i : ℚ) + sumPrec rel ds (i + 1) (h + 1)
    else sumPrec rel ds (i + 1) h

/-- `average_precision` from `ir_system/metrics.py`. -/
def average_precision (ranked_docids : List String) (relevant_set : Finset String) : ℚ :=
  if relevant_set = ∅ then 0
  else sumPrec relevant_set ranked_docids 1 0 / (relevant_set.card : ℚ)

/-! ## ScoreFusion (`ir_system/utils.py`: `merge_rerank` and `normalize_scores`)

```python
def merge_rerank(base, reranked_scores, topn, lam=0.5, keep_rest=True):
    def normalize_scores(hits):
        if not hits: return {}
        scores = [s for _, s in hits]
        min_s, max_s = min(scores), max(scores)
        if max_s == min_s: return {d: 1.0 for d, _ in hits}
        return {d: (s - min_s) / (max_s - min_s) for d, s in hits}

    head = base[:topn]
    base_norm = normalize_scores(head)
    rerank_pairs = [(d, reranked_scores.get(d, 0.0)) for d, _ in head]
    rerank_norm = normalize_scores(rerank_pairs)
    combined = []
    for d, _ in head:
        s = (1 - lam) * base_norm.get(d, 0.0) + lam * rerank_norm.get(d, 0.0)
        combined.append((d, float(s)))
    combined.sort(key=lambda x: x[1], reverse=True)
    if not keep_rest:
        return combined
    seen = set(d for d, _ in combined)
    tail = [(d, float(s)) for d, s in base if d not in seen]
    if combined and tail:
        min_head_score = combined[-1][1]
        max_tail_score = tail[0][1]
        if max_tail_score >= min_head_score:
            offset = max_tail_score - min_head_score + 1e-4
            tail = [(d, s - offset) for d, s in tail]
    return combined + tail
```
-/

/-- The descending-by-score total preorder used by
`combined.sort(key=lambda x: x[1], reverse=True)`. -/
def scoreGE (a b : String × ℚ) : Prop := b.2 ≤ a.2

instance : DecidableRel scoreGE := fun a b => inferInstanceAs (Decidable (b.2 ≤ a.2))

instance : IsTotal (String × ℚ) scoreGE := ⟨fun a b => le_total b.2 a.2⟩

instance : IsTrans (String × ℚ) scoreGE := ⟨fun _ _ _ h1 h2 => le_trans h2 h1⟩

/-- The inner `normalize_scores` closure of `merge_rerank`. Its degenerate
branch triggers on exact equality `max_s == min_s` and assigns the constant
`1.0`. The returned dict is modelled as the association list of the pairs the
comprehension iterates over. -/
def mergeNormalize (hits : List (String × ℚ)) : List (String × ℚ) :=
  match hits with
  | [] => []
  | _ :: _ =>
    let mn := listMin (hits.map Prod.snd)
    let mx := listMax (hits.map Prod.snd)
    if mx = mn then hits.map fun p => (p.1, 1)
    else hits.map fun p => (p.1, (p.2 - mn) / (mx - mn))

/-- The head phase of `merge_rerank`: take `base[:topn]`, normalize base and
(default-0) reranker scores over the head, interpolate with `lam`, and
stable-sort descending by fused score. -/
def fuseHead (base : List (String × ℚ)) (rr : String → Option ℚ) (topn : ℕ)
    (lam : ℚ) : List (String × ℚ) :=
  let head := base.take topn
  let baseNorm := mergeNormalize head
  let rerankPairs := head.map fun p => (p.1, (rr p.1).getD 0)
  let rerankNorm := mergeNormalize rerankPairs
  List.insertionSort scoreGE
    (head.map fun p => (p.1, (1 - lam) * dget baseNorm p.1 0 + lam * dget rerankNorm p.1 0))

/-- The tail selection of `merge_rerank`: every entry of `base` whose document
id was not emitted in the head (`seen`), in base order. -/
def fuseTail (base : List (String × ℚ)) (combined : List (String × ℚ)) :
    List (String × ℚ) :=
  base.filter fun p => decide (p.1 ∉ combined.map Prod.fst)

/-- The tail-shift step of `merge_rerank`: when head and tail are both
nonempty (`if combined and tail:`) and the tail's first score is `>=` the
head's last score, shift the whole tail down by
`max_tail_score - min_head_score + 1e-4`. -/
def shiftTail (combined tail : List (String × ℚ)) : List (String × ℚ) :=
  match combined.getLast?, tail.head? with
  | some hl, some t0 =>
    if hl.2 ≤ t0.2 then tail.map fun p => (p.1, p.2 - (t0.2 - hl.2 + 1 / 10000))
    else tail
  | _, _ => tail

/-- `merge_rerank` from `ir_system/utils.py`. -/
def merge_rerank (base : List (String × ℚ)) (rr : String → Option ℚ) (topn : ℕ)
    (lam : ℚ) (keep_rest : Bool) : List (String × ℚ) :=
  let combined := fuseHead base rr topn lam
  if !keep_rest then combined
  else combined ++ shiftTail combined (fuseTail base combined)

/-- The general-purpose `normalize_scores` from `ir_system/utils.py`. Its
degenerate branch triggers on `max - min < 1e-9` and assigns the constant
`0.0`. (The Python code routes min/max through a float32 numpy array; the
model uses the exact values.) -/
def normalize_scores (pairs : List (String × ℚ)) : List (String × ℚ) :=
  match pairs with
  | [] => []
  | _ :: _ =>
    let mn := listMin (pairs.map Prod.snd)
    let mx := listMax (pairs.map Prod.snd)
    if mx - mn < 1 / 1000000000 then pairs.map fun p => (p.1, 0)
    else pairs.map fun p => (p.1, (p.2 - mn) / (mx - mn))

/-- Comparison of fused entries by a key function applied to the score. -/
def scoreKeyGE (f : ℚ → ℚ) (a b : String × ℚ) : Prop := f b.2 ≤ f a.2

instance (f : ℚ → ℚ) : DecidableRel (scoreKeyGE f) :=
  fun a b => inferInstanceAs (Decidable (f b.2 ≤ f a.2))

/-- The value function of fuse's internal normalizer: constant `1` on an
all-equal score sequence, min–max rescaling otherwise. -/
def normFun (hits : List (String × ℚ)) (x : ℚ) : ℚ :=
  if listMax (hits.map Prod.snd) = listMin (hits.map Prod.snd) then 1
  else (x - listMin (hits.map Prod.snd)) /
    (listMax (hits.map Prod.snd) - listMin (hits.map Prod.snd))

/-! ## RunCodec (`ir_system/utils.py`: `write_trec_run`, `read_trec_run`,
`validate_run_file`)

A run-file line is modelled by the list of its whitespace-separated tokens
(`line.strip().split()`); an empty line yields the empty token list. Each
token is classified by its parse behaviour: `Tok.nat n` is a plain digit
string (accepted by both `int()` and `float()`), `Tok.q x` is a non-integer
float literal such as the 6-decimal fixed-point scores the writer emits
(accepted by `float()` only), and `Tok.str s` is any other token (accepted by
neither). Distinct tokens have distinct texts, so Python's string comparison
of fields is token equality. Query ids in a `RunSet` are modelled as `ℕ`
because the writer sorts them with `int(qid)`. -/

/-- A whitespace-separated token of a run-file line. -/
inductive Tok where
  | str : String → Tok
  | nat : ℕ → Tok
  | q : ℚ → Tok
deriving DecidableEq

/-- `int(token)`: succeeds only on digit-string tokens. -/
def Tok.toNat? : Tok → Option ℕ
  | .nat n => some n
  | _ => none

/-- `float(token)`: succeeds on digit strings and float literals. -/
def Tok.toQ? : Tok → Option ℚ
  | .nat n => some (n : ℚ)
  | .q x => some x
  | .str _ => none

/-- The `ValueError`s of the codec: `malformed` covers the two explicitly
raised line-format errors (wrong column count / second column not `Q0`),
carrying the 1-based line number; `badNumber` models the error `int()` or
`float()` raises on a non-numeric field; `rankSeq` and `scoreOrder` are the
two per-query validation errors of `validate_run_file`. -/
inductive RunFileError where
  | malformed (lineNo : ℕ) (reason : String)
  | badNumber (lineNo : ℕ)
  | rankSeq (qid : Tok)
  | scoreOrder (qid : Tok)
deriving DecidableEq

instance {ε α : Type} [DecidableEq ε] [DecidableEq α] : DecidableEq (Except ε α) := fun a b =>
  match a, b with
  | .error e, .error f =>
    match decEq e f with
    | isTrue h => isTrue (h ▸ rfl)
    | isFalse h => isFalse fun hc => h (Except.error.inj hc)
  | .ok x, .ok y =>
    match decEq x y with
    | isTrue h => isTrue (h ▸ rfl)
    | isFalse h => isFalse fun hc => h (Except.ok.inj hc)
  | .error _, .ok _ => isFalse fun hc => Except.noConfusion hc
  | .ok _, .error _ => isFalse fun hc => Except.noConfusion hc

/-- `by_qid.setdefault(qid, []).append(v)`: insertion-ordered grouping. -/
def groupAdd {α : Type} (gs : List (Tok × List α)) (k : Tok) (v : α) :
    List (Tok × List α) :=
  match gs with
  | [] => [(k, [v])]
  | (k', vs) :: rest =>
    if k' = k then (k', vs ++ [v]) :: rest else (k', vs) :: groupAdd rest k v

/-- The shared line-scanning loop of `read_trec_run` and `validate_run_file`:
per line, check 6 columns, check column 2 is the literal `Q0`, convert rank
with `int()` and score with `float()`, then group a payload (built by `mk`
from docid, rank, score) under the line's qid token. `n` is the 1-based line
number of the first remaining line. -/
def scanTrec {α : Type} (mk : Tok → ℕ → ℚ → α) :
    List (List Tok) → ℕ → List (Tok × List α) →
      Except RunFileError (List (Tok × List α))
  | [], _, acc => .ok acc
  | l :: rest, n, acc =>
    match l with
    | [qid, q0, docid, rankT, scoreT, _tag] =>
      if q0 = Tok.str "Q0" then
        match rankT.toNat?, scoreT.toQ? with
        | some r, some s => scanTrec mk rest (n + 1) (groupAdd acc qid (mk docid r s))
        | _, _ => .error (.badNumber n)
      else .error (.malformed n "q0")
    | _ => .error (.malformed n "cols")

/-- Ascending order on parsed rank, the key of `triples.sort(key=lambda x: x[0])`. -/
def rankLE (a b : ℕ × Tok × ℚ) : Prop := a.1 ≤ b.1

instance : DecidableRel rankLE := fun a b => Nat.decLe a.1 b.1

instance : IsTotal (ℕ × Tok × ℚ) rankLE := ⟨fun a b => Nat.le_total a.1 b.1⟩

instance : IsTrans (ℕ × Tok × ℚ) rankLE := ⟨fun _ _ _ h1 h2 => Nat.le_trans h1 h2⟩

/-- `read_trec_run` from `ir_system/utils.py`: scan all lines, then per query
(in first-occurrence order) sort the collected `(rank, docid, score)` triples
by rank and expose `(docid, score)` pairs. -/
def read_trec_run (lines : List (List Tok)) :
    Except RunFileError (List (Tok × List (Tok × ℚ))) :=
  match scanTrec (fun d r s => (r, d, s)) lines 1 [] with
  | .error e => .error e
  | .ok gs =>
    .ok (gs.map fun g =>
      (g.1, (List.insertionSort rankLE g.2).map fun t => (t.2.1, t.2.2)))

/-- The adjacent strict-increase test
`any(scores[i] < scores[i+1] for i in range(len(scores)-1))`. -/
def hasIncrease : List ℚ → Bool
  | a :: b :: t => decide (a < b) || hasIncrease (b :: t)
  | _ => false

/-- The per-query loop of `validate_run_file`: ranks (in file order) must be
exactly `1..count` (else `rankSeq`), a count different from `expected_k` is a
non-fatal warning, and a strict adjacent score increase (in file order) is a
`scoreOrder` error. Returns the warned qids. -/
def validateGroups (k : ℕ) : List (Tok × List (ℕ × ℚ)) → Except RunFileError (List Tok)
  | [] => .ok []
  | (q, lst) :: rest =>
    if lst.map Prod.fst = List.range' 1 lst.length then
      if hasIncrease (lst.map Prod.snd) then .error (.scoreOrder q)
      else
        match validateGroups k rest with
        | .error e => .error e
        | .ok ws => .ok ((if lst.length ≠ k then [q] else []) ++ ws)
    else .error (.rankSeq q)

/-- `validate_run_file` from `ir_system/utils.py`. -/
def validate_run_file (lines : List (List Tok)) (k : ℕ) :
    Except RunFileError (List Tok) :=
  match scanTrec (fun _ r s => (r, s)) lines 1 [] with
  | .error e => .error e
  | .ok gs => validateGroups k gs

/-- The 6-decimal fixed-point rounding performed by `f"{score:.6f}"`. -/
def round6 (x : ℚ) : ℚ := ((Rat.floor (x * 1000000 + 1 / 2) : ℤ) : ℚ) / 1000000

/-- Ascending numeric order on query ids, the key of
`sorted(rankings.keys(), key=lambda x: int(x))`. -/
def qidLE (a b : ℕ × List (String × ℚ)) : Prop := a.1 ≤ b.1

instance : DecidableRel qidLE := fun a b => Nat.decLe a.1 b.1

/-- One emitted line `f"{qid} Q0 {docid} {rank} {score:.6f} {run_tag}"`,
as its token list. -/
def formatRecord (q : ℕ) (tag : String) (rank : ℕ) (d : String) (s : ℚ) :
    List Tok :=
  [Tok.nat q, Tok.str "Q0", Tok.str d, Tok.nat rank, Tok.q (round6 s), Tok.str tag]

/-- `write_trec_run` from `ir_system/utils.py`: queries in ascending numeric
qid order, one line per hit, rank = 1-based position. -/
def write_trec_run (rankings : List (ℕ × List (String × ℚ))) (run_tag : String) :
    List (List Tok) :=
  (List.insertionSort qidLE rankings).flatMap fun g =>
    (List.enumFrom 1 g.2).map fun e => formatRecord g.1 run_tag e.1 e.2.1 e.2.2

/-- A ranking as the parser re-exposes it: docids as tokens, scores rounded. -/
def tokHits (hits : List (String × ℚ)) : List (Tok × ℚ) :=
  hits.map fun p => (Tok.str p.1, round6 p.2)

/-- What `parse(serialize(rankings))` should produce: the queries in ascending
qid order (queries with an empty ranking serialize to no lines at all and so
do not reappear), each ranking with rounded scores. -/
def expectedParse (rankings : List (ℕ × List (String × ℚ))) :
    List (Tok × List (Tok × ℚ)) :=
  ((List.insertionSort qidLE rankings).filter fun g => !g.2.isEmpty).map
    fun g => (Tok.nat g.1, tokHits g.2)

/-- The `(query_id, document_id, rank)` triples of a parsed run set (rank =
1-based position). -/
def parsedTriples (p : List (Tok × List (Tok × ℚ))) : List (Tok × Tok × ℕ) :=
  p.flatMap fun g => (List.enumFrom 1 g.2).map fun e => (g.1, e.2.1, e.1)

/-- The `(query_id, document_id, rank)` triples of an in-memory run set. -/
def origTriples (rankings : List (ℕ × List (String × ℚ))) : List (Tok × Tok × ℕ) :=
  rankings.flatMap fun g =>
    (List.enumFrom 1 g.2).map fun e => (Tok.nat g.1, Tok.str e.2.1, e.1)

/-- The claim's notion of a well-formed line: exactly 6 whitespace-separated
fields with the literal `Q0` second. -/
def lineShapeOk (l : List Tok) : Bool :=
  match l with
  | [_, q0, _, _, _, _] => q0 == Tok.str "Q0"
  | _ => false

/-- Numeric typing of the rank and score fields (`int()` / `float()` succeed);
vacuously true on lines that are not 6 fields long. -/
def lineNumOk (l : List Tok) : Bool :=
  match l with
  | [_, _, _, rankT, scoreT, _] => rankT.toNat?.isSome && scoreT.toQ?.isSome
  | _ => true

/-- A line the scanner accepts. -/
def wfLine (l : List Tok) : Bool := lineShapeOk l && lineNumOk l

/-- The `(rank, docid, score)` triples the scanner collects from the block of
lines the writer emits for one query, ranks starting at `k`. -/
def blockTriples (hits : List (String × ℚ)) (k : ℕ) : List (ℕ × Tok × ℚ) :=
  (List.enumFrom k hits).map fun e => (e.1, Tok.str e.2.1, round6 e.2.2)

theorem listMin_le (l : List ℚ) (x : ℚ) (hx : x ∈ l) : listMin l ≤ x := by
  induction l with
  | nil => cases hx
  | cons a t ih =>
    cases t with
    | nil =>
      rcases List.mem_cons.1 hx with h | h
      · simp [listMin, h]
      · cases h
    | cons b t' =>
      rcases List.mem_cons.1 hx with h | h
      · simp [listMin, h, min_le_left]
      · exact le_trans (by simp [listMin, min_le_right]) (ih h)

theorem le_listMax (l : List ℚ) (x : ℚ) (hx : x ∈ l) : x ≤ listMax l := by
  induction l with
  | nil => cases hx
  | cons a t ih =>
    cases t with
    | nil =>
      rcases List.mem_cons.1 hx with h | h
      · simp [listMax, h]
      · cases h
    | cons b t' =>
      rcases List.mem_cons.1 hx with h | h
      · simp [listMax, h, le_max_left]
      · exact le_trans (ih h) (by simp [listMax, le_max_right])

theorem sumPrec_nonneg (rel : Finset String) (l : List String) (i h : ℕ) :
    0 ≤ sumPrec rel l i h := by
  induction l generalizing i h with
  | nil => simp [sumPrec]
  | cons d ds ih =>
    by_cases hd : d ∈ rel
    · simpa [sumPrec, hd] using
        add_nonneg (div_nonneg (by positivity) (by positivity)) (ih (i + 1) (h + 1))
    · simpa [sumPrec, hd] using ih (i + 1) h

theorem sumPrec_le_filter_length (rel : Finset String) (l : List String) (i h : ℕ)
    (hhi : h < i) :
    sumPrec rel l i h ≤ ((l.filter fun d => decide (d ∈ rel)).length : ℚ) := by
  induction l generalizing i h with
  | nil => simp [sumPrec]
  | cons d ds ih =>
    by_cases hd : d ∈ rel
    · have h1 : ((h + 1 : ℕ) : ℚ) / (i : ℚ) ≤ 1 := by
        have hi : 0 < (i : ℚ) := by
          have : 0 < i := by omega
          exact_mod_cast this
        rw [div_le_one hi]
        exact_mod_cast Nat.succ_le_of_lt hhi
      have h2 := ih (i + 1) (h + 1) (by omega)
      have hfc : List.filter (fun x => decide (x ∈ rel)) (d :: ds)
          = d :: List.filter (fun x => decide (x ∈ rel)) ds := by
        simp [List.filter_cons, hd]
      simp only [sumPrec, if_pos hd, hfc, List.length_cons]
      push_cast at h1 h2 ⊢
      linarith
    · have h2 := ih (i + 1) h (by omega)
      simp only [sumPrec, if_neg hd, List.filter_cons]
      simp only [decide_eq_false hd]
      exact h2

theorem filter_mem_length_le_card (rel : Finset String) (l : List String) (hnd : l.Nodup) :
    ((l.filter fun d => decide (d ∈ rel)).length : ℚ) ≤ (rel.card : ℚ) := by
  have hf : (l.filter fun d => decide (d ∈ rel)).Nodup := hnd.filter _
  have hsub : (l.filter fun d => decide (d ∈ rel)).toFinset ⊆ rel := by
    intro x hx
    rw [List.mem_toFinset] at hx
    have := List.of_mem_filter hx
    simpa using this
  have hcard := Finset.card_le_card hsub
  rw [List.toFinset_card_of_nodup hf] at hcard
  exact_mod_cast hcard

/-- C1 (amended): `average_precision` is nonnegative for every input; it is at
most `1` whenever the ranked sequence contains no duplicate document ids; and
on an empty relevant set it returns `0.0` regardless of the ranked sequence.
(The claim's unconditional upper bound fails when a relevant document id
occurs more than once in the ranked sequence, see the counterexample.) -/
theorem c1_average_precision_bounds (ranked : List String) (relevant : Finset String) :
    0 ≤ average_precision ranked relevant ∧
    (ranked.Nodup → average_precision ranked relevant ≤ 1) ∧
    (relevant = ∅ → average_precision ranked relevant = 0) := by
  refine ⟨?_, ?_, ?_⟩
  · unfold average_precision
    split
    · exact le_refl 0
    · exact div_nonneg (sumPrec_nonneg _ _ _ _) (by positivity)
  · intro hnd
    unfold average_precision
    split
    · norm_num
    · rename_i hne
      have hcard : 0 < relevant.card := Finset.card_pos.2 (Finset.nonempty_iff_ne_empty.2 hne)
      have hcardQ : 0 < (relevant.card : ℚ) := by exact_mod_cast hcard
      rw [div_le_one hcardQ]
      exact le_trans (sumPrec_le_filter_length relevant ranked 1 0 (by omega))
        (filter_mem_length_le_card relevant ranked hnd)
  · intro h
    simp [average_precision, h]

/-- C1 counterexample: on the ranked sequence `["d1","d1"]` (a duplicated
relevant document) with relevant set `{"d1"}`, `average_precision`
returns `2.0`, which is outside `[0,1]` — refuting the claim as stated. -/
theorem c1_counterexample :
    average_precision ["d1", "d1"] {"d1"} = 2 ∧
    ¬ average_precision ["d1", "d1"] {"d1"} ≤ 1 := by
  constructor
  · norm_num [average_precision, sumPrec]
  · norm_num [average_precision, sumPrec]

/-- C1 witness: the amended theorem applied at the spec's own example,
`averagePrecision(["d1","d2","d3"], {"d1","d3"})`. -/
theorem c1_witness :
    (["d1", "d2", "d3"] : List String).Nodup ∧
    0 ≤ average_precision ["d1", "d2", "d3"] {"d1", "d3"} ∧
    average_precision ["d1", "d2", "d3"] {"d1", "d3"} ≤ 1 :=
  ⟨by decide,
    (c1_average_precision_bounds ["d1", "d2", "d3"] {"d1", "d3"}).1,
    (c1_average_precision_bounds ["d1", "d2", "d3"] {"d1", "d3"}).2.1 (by decide)⟩

theorem dlookup_eq_none (m : List (String × ℚ)) (d : String)
    (hd : d ∉ m.map Prod.fst) : dlookup m d = none := by
  induction m with
  | nil => rfl
  | cons p t ih =>
    simp only [List.map_cons, List.mem_cons] at hd
    push_neg at hd
    rw [dlookup, ih hd.2, if_neg (fun h => hd.1 h.symm)]

theorem dlookup_map_const (l : List (String × ℚ)) (c : ℚ) (d : String)
    (hd : d ∈ l.map Prod.fst) :
    dlookup (l.map fun p => (p.1, c)) d = some c := by
  induction l with
  | nil => cases hd
  | cons p t ih =>
    by_cases hmem : d ∈ t.map Prod.fst
    · rw [List.map_cons, dlookup, ih hmem]
    · have hkeys : d ∉ (t.map fun p => (p.1, c)).map Prod.fst := by
        simpa [List.map_map, Function.comp] using hmem
      have hpd : p.1 = d := by
        rw [List.map_cons] at hd
        rcases List.mem_cons.1 hd with h | h
        · exact h.symm
        · exact absurd h hmem
      rw [List.map_cons, dlookup, dlookup_eq_none _ _ hkeys, if_pos hpd]

theorem dlookup_map_nodup (l : List (String × ℚ)) (g : String × ℚ → ℚ)
    (hnd : (l.map Prod.fst).Nodup) :
    ∀ p ∈ l, dlookup (l.map fun q => (q.1, g q)) p.1 = some (g p) := by
  induction l with
  | nil => intro p hp; cases hp
  | cons q t ih =>
    simp only [List.map_cons, List.nodup_cons] at hnd
    intro p hp
    rcases List.mem_cons.1 hp with h | h
    · subst h
      have hkeys : p.1 ∉ (t.map fun q => (q.1, g q)).map Prod.fst := by
        simpa [List.map_map, Function.comp] using hnd.1
      rw [List.map_cons, dlookup, dlookup_eq_none _ _ hkeys, if_pos rfl]
    · rw [List.map_cons, dlookup, ih hnd.2 p h]

/-- Helper shared by C2 and C9: when the scores of a nonempty `hits` sequence
are all equal (`max == min`), the fusion-internal normalizer maps every key
to the constant `1.0`. -/
theorem mergeNormalize_const_one (hits : List (String × ℚ)) (hne : hits ≠ [])
    (hdeg : listMax (hits.map Prod.snd) = listMin (hits.map Prod.snd)) :
    ∀ d ∈ hits.map Prod.fst, dlookup (mergeNormalize hits) d = some 1 := by
  intro d hd
  match hits, hne with
  | p :: t, _ =>
    rw [mergeNormalize]
    simp only [if_pos hdeg]
    exact dlookup_map_const _ _ _ hd

/-- C2 (amended): inside fuse, the degenerate constant-`1.0` normalization of a
head sequence triggers exactly on *exact* score equality `max == min` (the code
tests `max_s == min_s`), not on `max - min < 1e-9`: every member of a nonempty
all-equal sequence is mapped to `1.0`. When `0 < max - min < 1e-9` normal
min–max normalization happens instead (see the counterexample). -/
theorem c2_mergeNormalize_degenerate (hits : List (String × ℚ)) (hne : hits ≠ [])
    (hdeg : listMax (hits.map Prod.snd) = listMin (hits.map Prod.snd)) :
    ∀ d ∈ hits.map Prod.fst, dlookup (mergeNormalize hits) d = some 1 :=
  mergeNormalize_const_one hits hne hdeg

unseal Rat.add Rat.sub Rat.mul Rat.inv in
/-- C2 counterexample: the head sequence `[("a",0), ("b",1e-10)]` has
`max - min = 1e-10 < 1e-9`, yet fuse's normalizer assigns `"a"` the value
`0.0`, not the constant `1.0` the claim requires; accordingly
`merge_rerank` at this base with `lam = 0` returns `[("b",1),("a",0)]`. -/
theorem c2_counterexample :
    listMax ([("a", (0 : ℚ)), ("b", 1 / 10000000000)].map Prod.snd) -
        listMin ([("a", (0 : ℚ)), ("b", 1 / 10000000000)].map Prod.snd) < 1 / 1000000000 ∧
    dlookup (mergeNormalize [("a", (0 : ℚ)), ("b", 1 / 10000000000)]) "a" = some 0 ∧
    merge_rerank [("a", (0 : ℚ)), ("b", 1 / 10000000000)] (fun _ => none) 2 0 true =
      [("b", 1), ("a", 0)] := by
  refine ⟨by decide, by decide, by decide⟩

unseal Rat.add Rat.sub Rat.mul Rat.inv in
/-- C2 witness: a nonempty all-equal head sequence, with the amended theorem
applied at it. -/
theorem c2_witness :
    ([("a", (2 : ℚ)), ("b", 2)] : List (String × ℚ)) ≠ [] ∧
    dlookup (mergeNormalize [("a", (2 : ℚ)), ("b", 2)]) "a" = some 1 :=
  ⟨by decide,
    c2_mergeNormalize_degenerate [("a", 2), ("b", 2)] (by decide) (by decide) "a" (by decide)⟩

/-- C9: the general-purpose `normalize_scores`, on a nonempty pair list whose
scores satisfy `max - min < 1e-9`, maps every document id to the constant
`0.0`; otherwise it maps each score `x` to `(x - min) / (max - min)`. This is
a different convention from the fusion-internal normalizer, which assigns the
constant `1.0` on an (exactly) degenerate sequence — the third conjunct. -/
theorem c9_normalize_scores_spec (pairs : List (String × ℚ)) (hne : pairs ≠ []) :
    (listMax (pairs.map Prod.snd) - listMin (pairs.map Prod.snd) < 1 / 1000000000 →
      ∀ d ∈ pairs.map Prod.fst, dlookup (normalize_scores pairs) d = some 0) ∧
    (¬ listMax (pairs.map Prod.snd) - listMin (pairs.map Prod.snd) < 1 / 1000000000 →
      normalize_scores pairs = pairs.map fun p =>
        (p.1, (p.2 - listMin (pairs.map Prod.snd)) /
          (listMax (pairs.map Prod.snd) - listMin (pairs.map Prod.snd)))) ∧
    (∀ hits : List (String × ℚ), hits ≠ [] →
      listMax (hits.map Prod.snd) = listMin (hits.map Prod.snd) →
      ∀ d ∈ hits.map Prod.fst, dlookup (mergeNormalize hits) d = some 1) := by
  refine ⟨?_, ?_, fun hits h1 h2 => mergeNormalize_const_one hits h1 h2⟩
  · intro hdeg d hd
    match pairs, hne with
    | p :: t, _ =>
      rw [normalize_scores]
      simp only [if_pos hdeg]
      exact dlookup_map_const _ _ _ hd
  · intro hdeg
    match pairs, hne with
    | p :: t, _ =>
      rw [normalize_scores]
      simp only [if_neg hdeg]

unseal Rat.add Rat.sub Rat.mul Rat.inv in
/-- C9 witness: the theorem applied at the non-degenerate input
`[("a",0), ("b",1)]`. -/
theorem c9_witness :
    ([("a", (0 : ℚ)), ("b", 1)] : List (String × ℚ)) ≠ [] ∧
    ¬ listMax ([("a", (0 : ℚ)), ("b", 1)].map Prod.snd) -
        listMin ([("a", (0 : ℚ)), ("b", 1)].map Prod.snd) < 1 / 1000000000 ∧
    normalize_scores [("a", (0 : ℚ)), ("b", 1)] =
      [("a", (0 : ℚ)), ("b", 1)].map fun p =>
        (p.1, (p.2 - listMin ([("a", (0 : ℚ)), ("b", 1)].map Prod.snd)) /
          (listMax ([("a", (0 : ℚ)), ("b", 1)].map Prod.snd) -
            listMin ([("a", (0 : ℚ)), ("b", 1)].map Prod.snd))) :=
  ⟨by decide, by decide,
    (c9_normalize_scores_spec [("a", 0), ("b", 1)] (by decide)).2.1 (by decide)⟩

theorem sorted_getLast?_le :
    ∀ l : List (String × ℚ), List.Sorted scoreGE l →
      ∀ x, l.getLast? = some x → ∀ a ∈ l, x.2 ≤ a.2
  | [], _, x, hx => by simp at hx
  | [a], _, x, hx => by
    intro c hc
    have hxa : a = x := by simpa using hx
    have hca : c = a := by simpa using hc
    simp [← hxa, hca]
  | a :: b :: t, hs, x, hx => by
    intro c hc
    rw [List.getLast?_cons_cons] at hx
    rcases List.mem_cons.1 hc with rfl | hmem
    · exact List.rel_of_sorted_cons hs x (List.mem_of_mem_getLast? hx)
    · exact sorted_getLast?_le (b :: t) hs.of_cons x hx c hmem

theorem sorted_head?_ge (l : List (String × ℚ)) (hs : List.Sorted scoreGE l)
    (x : String × ℚ) (hx : l.head? = some x) : ∀ b ∈ l, b.2 ≤ x.2 := by
  cases l with
  | nil => simp at hx
  | cons a t =>
    have hxa : a = x := by simpa using hx
    subst hxa
    intro b hb
    rcases List.mem_cons.1 hb with rfl | hmem
    · exact le_refl _
    · exact List.rel_of_sorted_cons hs b hmem

theorem sorted_fuseHead (base : List (String × ℚ)) (rr : String → Option ℚ)
    (topn : ℕ) (lam : ℚ) : List.Sorted scoreGE (fuseHead base rr topn lam) :=
  List.sorted_insertionSort scoreGE _

theorem fuseHead_fst_perm (base : List (String × ℚ)) (rr : String → Option ℚ)
    (topn : ℕ) (lam : ℚ) :
    ((fuseHead base rr topn lam).map Prod.fst).Perm ((base.take topn).map Prod.fst) := by
  unfold fuseHead
  refine ((List.perm_insertionSort scoreGE _).map Prod.fst).trans ?_
  rw [List.map_map]
  exact List.Perm.refl _

theorem sorted_fuseTail (base : List (String × ℚ)) (combined : List (String × ℚ))
    (hbase : List.Sorted scoreGE base) :
    List.Sorted scoreGE (fuseTail base combined) :=
  List.Pairwise.sublist (List.filter_sublist base) hbase

theorem shiftTail_fst (combined tail : List (String × ℚ)) :
    (shiftTail combined tail).map Prod.fst = tail.map Prod.fst := by
  unfold shiftTail
  split
  · split
    · rw [List.map_map]
      exact List.map_congr_left fun p _ => rfl
    · rfl
  · rfl

theorem shiftTail_length (combined tail : List (String × ℚ)) :
    (shiftTail combined tail).length = tail.length := by
  unfold shiftTail
  split
  · split
    · exact List.length_map _ _
    · rfl
  · rfl

theorem shiftTail_of_cond (combined tail : List (String × ℚ)) (hl t0 : String × ℚ)
    (hA : combined.getLast? = some hl) (hB : tail.head? = some t0)
    (hc : hl.2 ≤ t0.2) :
    shiftTail combined tail = tail.map fun p => (p.1, p.2 - (t0.2 - hl.2 + 1 / 10000)) := by
  unfold shiftTail
  rw [hA, hB]
  exact if_pos hc

theorem merge_rerank_true_eq (base : List (String × ℚ)) (rr : String → Option ℚ)
    (topn : ℕ) (lam : ℚ) :
    merge_rerank base rr topn lam true =
      fuseHead base rr topn lam ++
        shiftTail (fuseHead base rr topn lam) (fuseTail base (fuseHead base rr topn lam)) := by
  simp [merge_rerank]

/-- C4 (confirmed): with `keep_rest` true on a base whose scores are
non-increasing, if the fused head and the tail are nonempty (`hl` the head's
last = lowest fused entry, `t0` the tail's first = highest entry) and
`t0.2 ≥ hl.2`, the whole tail is shifted down by `t0.2 - hl.2 + 1e-4`;
afterwards every tail score is strictly below every head fused score and the
concatenation is sorted descending. -/
theorem c4_tail_shift (base : List (String × ℚ)) (rr : String → Option ℚ)
    (topn : ℕ) (lam : ℚ) (hbase : List.Sorted scoreGE base) (hl t0 : String × ℚ)
    (hlast : (fuseHead base rr topn lam).getLast? = some hl)
    (hhead : (fuseTail base (fuseHead base rr topn lam)).head? = some t0)
    (hcond : hl.2 ≤ t0.2) :
    merge_rerank base rr topn lam true =
      fuseHead base rr topn lam ++
        (fuseTail base (fuseHead base rr topn lam)).map
          (fun p => (p.1, p.2 - (t0.2 - hl.2 + 1 / 10000))) ∧
    (∀ b ∈ (fuseTail base (fuseHead base rr topn lam)).map
        (fun p => (p.1, p.2 - (t0.2 - hl.2 + 1 / 10000))),
      ∀ a ∈ fuseHead base rr topn lam, b.2 < a.2) ∧
    List.Sorted scoreGE (merge_rerank base rr topn lam true) := by
  have hsortC := sorted_fuseHead base rr topn lam
  have hminC := sorted_getLast?_le _ hsortC hl hlast
  have hsortT := sorted_fuseTail base (fuseHead base rr topn lam) hbase
  have hmaxT := sorted_head?_ge _ hsortT t0 hhead
  have heq : merge_rerank base rr topn lam true =
      fuseHead base rr topn lam ++
        (fuseTail base (fuseHead base rr topn lam)).map
          (fun p => (p.1, p.2 - (t0.2 - hl.2 + 1 / 10000))) := by
    rw [merge_rerank_true_eq, shiftTail_of_cond _ _ hl t0 hlast hhead hcond]
  have hstrict : ∀ b ∈ (fuseTail base (fuseHead base rr topn lam)).map
      (fun p => (p.1, p.2 - (t0.2 - hl.2 + 1 / 10000))),
      ∀ a ∈ fuseHead base rr topn lam, b.2 < a.2 := by
    intro b hb a ha
    rcases List.mem_map.1 hb with ⟨p, hp, rfl⟩
    have h1 : p.2 ≤ t0.2 := hmaxT p hp
    have h2 : hl.2 ≤ a.2 := hminC a ha
    simp only
    linarith
  refine ⟨heq, hstrict, ?_⟩
  rw [heq]
  rw [List.Sorted, List.pairwise_append]
  refine ⟨hsortC, ?_, ?_⟩
  · exact List.Pairwise.map _ (fun p q hpq => by
      simp only [scoreGE] at hpq ⊢
      linarith) hsortT
  · intro a ha b hb
    exact le_of_lt (hstrict b hb a ha)

unseal Rat.add Rat.sub Rat.mul Rat.inv in
/-- C4 witness: `base = [("a",10),("b",9),("c",8)]`, `topn = 2`,
`lam = 1/2`, empty reranker — the head fuses to `[("a",1),("b",1/2)]`, the
tail `[("c",8)]` triggers the shift, and the theorem applies. -/
theorem c4_witness :
    List.Sorted scoreGE [("a", (10 : ℚ)), ("b", 9), ("c", 8)] ∧
    (fuseHead [("a", (10 : ℚ)), ("b", 9), ("c", 8)] (fun _ => none) 2 (1 / 2)).getLast?
      = some ("b", 1 / 2) ∧
    (fuseTail [("a", (10 : ℚ)), ("b", 9), ("c", 8)]
        (fuseHead [("a", (10 : ℚ)), ("b", 9), ("c", 8)] (fun _ => none) 2 (1 / 2))).head?
      = some ("c", 8) ∧
    List.Sorted scoreGE
      (merge_rerank [("a", (10 : ℚ)), ("b", 9), ("c", 8)] (fun _ => none) 2 (1 / 2) true) :=
  ⟨by decide, by decide, by decide,
    (c4_tail_shift [("a", 10), ("b", 9), ("c", 8)] (fun _ => none) 2 (1 / 2)
      (by decide) ("b", 1 / 2) ("c", 8) (by decide) (by decide) (by decide)).2.2⟩

theorem filter_eq_drop_filter (base : List (String × ℚ)) (topn : ℕ)
    (P : String × ℚ → Bool) (hP : ∀ p ∈ base.take topn, P p = false) :
    base.filter P = (base.drop topn).filter P := by
  conv_lhs => rw [← List.take_append_drop topn base]
  rw [List.filter_append, List.filter_eq_nil_iff.2 (fun p hp => by simp [hP p hp]),
    List.nil_append]

/-- C3 (amended): with `keep_rest` true, on a base whose document ids are
pairwise distinct, the tail is exactly the entries of `base` beyond the head
whose id is not in the head, in their original base order (a sublist of
`base`), with pairwise distinct ids; the output has length
`|head| + |tail|` and every head document id occurs exactly once in the
output. (The claim's deduplication guarantee fails when `base` itself
repeats an id beyond the head — the code never dedups within the tail — see
the counterexample.) -/
theorem c3_tail_structure (base : List (String × ℚ)) (rr : String → Option ℚ)
    (topn : ℕ) (lam : ℚ) (hnd : (base.map Prod.fst).Nodup) :
    fuseTail base (fuseHead base rr topn lam) =
      (base.drop topn).filter
        (fun p => decide (p.1 ∉ (base.take topn).map Prod.fst)) ∧
    ((fuseTail base (fuseHead base rr topn lam)).map Prod.fst).Nodup ∧
    (fuseTail base (fuseHead base rr topn lam)).Sublist base ∧
    (merge_rerank base rr topn lam true).length =
      (base.take topn).length + (fuseTail base (fuseHead base rr topn lam)).length ∧
    ∀ d ∈ (base.take topn).map Prod.fst,
      ((merge_rerank base rr topn lam true).map Prod.fst).count d = 1 := by
  have hperm := fuseHead_fst_perm base rr topn lam
  have hmemiff : ∀ x, x ∈ (fuseHead base rr topn lam).map Prod.fst ↔
      x ∈ (base.take topn).map Prod.fst := fun x => hperm.mem_iff
  have htake_nd : ((base.take topn).map Prod.fst).Nodup := by
    rw [List.map_take]
    exact List.Nodup.sublist (List.take_sublist _ _) hnd
  have htail_eq : fuseTail base (fuseHead base rr topn lam) =
      (base.drop topn).filter
        (fun p => decide (p.1 ∉ (base.take topn).map Prod.fst)) := by
    unfold fuseTail
    have hcongr : base.filter (fun p => decide (p.1 ∉ (fuseHead base rr topn lam).map Prod.fst))
        = base.filter (fun p => decide (p.1 ∉ (base.take topn).map Prod.fst)) :=
      List.filter_congr fun p _ => decide_eq_decide.2 (not_congr (hmemiff p.1))
    rw [hcongr]
    exact filter_eq_drop_filter base topn _ fun p hp => by
      simp only [decide_eq_false_iff_not, not_not]
      exact List.mem_map_of_mem Prod.fst hp
  have htail_sub : (fuseTail base (fuseHead base rr topn lam)).Sublist base :=
    List.filter_sublist base
  have htail_nd : ((fuseTail base (fuseHead base rr topn lam)).map Prod.fst).Nodup :=
    List.Nodup.sublist (List.Sublist.map Prod.fst htail_sub) hnd
  have hlen : (merge_rerank base rr topn lam true).length =
      (base.take topn).length + (fuseTail base (fuseHead base rr topn lam)).length := by
    rw [merge_rerank_true_eq, List.length_append, shiftTail_length]
    congr 1
    unfold fuseHead
    rw [List.length_insertionSort, List.length_map]
  refine ⟨htail_eq, htail_nd, htail_sub, hlen, ?_⟩
  intro d hd
  have hmapfst : (merge_rerank base rr topn lam true).map Prod.fst =
      (fuseHead base rr topn lam).map Prod.fst ++
        (fuseTail base (fuseHead base rr topn lam)).map Prod.fst := by
    rw [merge_rerank_true_eq, List.map_append, shiftTail_fst]
  rw [hmapfst, List.count_append]
  have hcnt1 : ((fuseHead base rr topn lam).map Prod.fst).count d = 1 := by
    rw [hperm.count_eq d]
    exact List.count_eq_one_of_mem htake_nd hd
  have hcnt0 : ((fuseTail base (fuseHead base rr topn lam)).map Prod.fst).count d = 0 := by
    rw [List.count_eq_zero]
    intro hmem
    rcases List.mem_map.1 hmem with ⟨p, hp, rfl⟩
    have := List.of_mem_filter hp
    rw [decide_eq_true_iff] at this
    exact this ((hmemiff p.1).2 hd)
  rw [hcnt1, hcnt0]

unseal Rat.add Rat.sub Rat.mul Rat.inv in
/-- C3 counterexample: `base = [("a",3),("b",2),("b",1)]`, `topn = 1` — the
code builds the tail from all of `base` filtered only against the head's ids,
never deduplicating within the tail, so `"b"` appears twice in the tail and
twice in the output, refuting the claim's at-most-once guarantee. -/
theorem c3_counterexample :
    (fuseTail [("a", (3 : ℚ)), ("b", 2), ("b", 1)]
        (fuseHead [("a", (3 : ℚ)), ("b", 2), ("b", 1)] (fun _ => none) 1 0)).map Prod.fst
      = ["b", "b"] ∧
    ¬ ((fuseTail [("a", (3 : ℚ)), ("b", 2), ("b", 1)]
        (fuseHead [("a", (3 : ℚ)), ("b", 2), ("b", 1)] (fun _ => none) 1 0)).map Prod.fst).Nodup ∧
    ((merge_rerank [("a", (3 : ℚ)), ("b", 2), ("b", 1)] (fun _ => none) 1 0 true).map
        Prod.fst).count "b" = 2 := by
  refine ⟨by decide, by decide, by decide⟩

unseal Rat.add Rat.sub Rat.mul Rat.inv in
/-- C3 witness: the amended theorem applied at
`base = [("a",3),("b",2),("c",1)]`, `topn = 2`, `lam = 1/2`. -/
theorem c3_witness :
    (([("a", (3 : ℚ)), ("b", 2), ("c", 1)].map Prod.fst).Nodup) ∧
    ((fuseTail [("a", (3 : ℚ)), ("b", 2), ("c", 1)]
        (fuseHead [("a", (3 : ℚ)), ("b", 2), ("c", 1)] (fun _ => none) 2 (1 / 2))).map
          Prod.fst).Nodup ∧
    ((merge_rerank [("a", (3 : ℚ)), ("b", 2), ("c", 1)] (fun _ => none) 2 (1 / 2) true).map
        Prod.fst).count "a" = 1 :=
  ⟨by decide,
    (c3_tail_structure [("a", 3), ("b", 2), ("c", 1)] (fun _ => none) 2 (1 / 2)
      (by decide)).2.1,
    (c3_tail_structure [("a", 3), ("b", 2), ("c", 1)] (fun _ => none) 2 (1 / 2)
      (by decide)).2.2.2.2 "a" (by decide)⟩

theorem mergeNormalize_eq_map (hits : List (String × ℚ)) (hne : hits ≠ []) :
    mergeNormalize hits = hits.map fun p => (p.1, normFun hits p.2) := by
  match hits, hne with
  | q :: t, _ =>
    rw [mergeNormalize]
    by_cases h : listMax ((q :: t).map Prod.snd) = listMin ((q :: t).map Prod.snd)
    · simp only [if_pos h]
      exact List.map_congr_left fun p _ => by simp only [normFun, if_pos h]
    · simp only [if_neg h]
      exact List.map_congr_left fun p _ => by simp only [normFun, if_neg h]

theorem orderedInsert_map_key (f : ℚ → ℚ) (a : String × ℚ) (l : List (String × ℚ)) :
    List.orderedInsert scoreGE (a.1, f a.2) (l.map fun p => (p.1, f p.2))
      = (List.orderedInsert (scoreKeyGE f) a l).map fun p => (p.1, f p.2) := by
  induction l with
  | nil => rfl
  | cons b t ih =>
    simp only [List.map_cons, List.orderedInsert]
    by_cases h : scoreKeyGE f a b
    · rw [if_pos (show scoreGE (a.1, f a.2) (b.1, f b.2) from h), if_pos h]
      rfl
    · rw [if_neg (show ¬scoreGE (a.1, f a.2) (b.1, f b.2) from h), if_neg h]
      rw [List.map_cons]
      exact congrArg (List.cons _) ih

theorem insertionSort_map_key (f : ℚ → ℚ) (l : List (String × ℚ)) :
    List.insertionSort scoreGE (l.map fun p => (p.1, f p.2))
      = (List.insertionSort (scoreKeyGE f) l).map fun p => (p.1, f p.2) := by
  induction l with
  | nil => rfl
  | cons a t ih =>
    simp only [List.map_cons, List.insertionSort]
    rw [ih, orderedInsert_map_key]

theorem orderedInsert_congr_mem (r r' : (String × ℚ) → (String × ℚ) → Prop)
    [DecidableRel r] [DecidableRel r'] (a : String × ℚ) (l : List (String × ℚ))
    (h : ∀ b ∈ l, r a b ↔ r' a b) :
    List.orderedInsert r a l = List.orderedInsert r' a l := by
  induction l with
  | nil => rfl
  | cons b t ih =>
    simp only [List.orderedInsert]
    by_cases hr : r a b
    · rw [if_pos hr, if_pos ((h b (List.mem_cons_self b t)).1 hr)]
    · rw [if_neg hr, if_neg (fun hc => hr ((h b (List.mem_cons_self b t)).2 hc)),
        ih fun c hc => h c (List.mem_cons_of_mem b hc)]

theorem insertionSort_congr_mem (r r' : (String × ℚ) → (String × ℚ) → Prop)
    [DecidableRel r] [DecidableRel r'] (l : List (String × ℚ))
    (h : ∀ a ∈ l, ∀ b ∈ l, r a b ↔ r' a b) :
    List.insertionSort r l = List.insertionSort r' l := by
  induction l with
  | nil => rfl
  | cons a t ih =>
    simp only [List.insertionSort]
    rw [ih fun x hx y hy => h x (List.mem_cons_of_mem _ hx) y (List.mem_cons_of_mem _ hy)]
    refine orderedInsert_congr_mem r r' a _ fun b hb => ?_
    have hb' : b ∈ t := (List.mem_insertionSort r').1 hb
    exact h a (List.mem_cons_self a t) b (List.mem_cons_of_mem a hb')

theorem scoreKeyGE_normFun_iff (head : List (String × ℚ)) :
    ∀ a ∈ head, ∀ b ∈ head, scoreKeyGE (normFun head) a b ↔ scoreGE a b := by
  intro a ha b hb
  have ha2 : a.2 ∈ head.map Prod.snd := List.mem_map_of_mem Prod.snd ha
  have hb2 : b.2 ∈ head.map Prod.snd := List.mem_map_of_mem Prod.snd hb
  by_cases h : listMax (head.map Prod.snd) = listMin (head.map Prod.snd)
  · have haeq : a.2 = listMin (head.map Prod.snd) :=
      le_antisymm (h ▸ le_listMax _ _ ha2) (listMin_le _ _ ha2)
    have hbeq : b.2 = listMin (head.map Prod.snd) :=
      le_antisymm (h ▸ le_listMax _ _ hb2) (listMin_le _ _ hb2)
    simp only [scoreKeyGE, normFun, if_pos h, scoreGE, haeq, hbeq]
    exact iff_of_true (le_refl 1) (le_refl _)
  · have hle : listMin (head.map Prod.snd) ≤ listMax (head.map Prod.snd) :=
      le_trans (listMin_le _ _ ha2) (le_listMax _ _ ha2)
    have hpos : 0 < listMax (head.map Prod.snd) - listMin (head.map Prod.snd) :=
      sub_pos.2 (lt_of_le_of_ne hle fun he => h he.symm)
    simp only [scoreKeyGE, normFun, if_neg h, scoreGE]
    rw [div_le_div_iff_of_pos_right hpos, sub_le_sub_iff_right]

/-- C5 (amended): when the head's document ids are pairwise distinct, fusion
with `lam = 0` orders the head exactly as the stable descending sort of the
original head by base score: the reranker scores have no effect. (With a
duplicated id inside the head the reranker-independent claim fails because
the score dict collapses the duplicates — see the counterexample.) -/
theorem c5_lam_zero_base_order (base : List (String × ℚ)) (rr : String → Option ℚ)
    (topn : ℕ) (hnd : ((base.take topn).map Prod.fst).Nodup) :
    (fuseHead base rr topn 0).map Prod.fst
      = (List.insertionSort scoreGE (base.take topn)).map Prod.fst := by
  by_cases hne : base.take topn = []
  · simp [fuseHead, hne]
  · have hpre : (base.take topn).map
        (fun p => (p.1, (1 - 0) * dget (mergeNormalize (base.take topn)) p.1 0 +
          0 * dget (mergeNormalize ((base.take topn).map fun p => (p.1, (rr p.1).getD 0)))
            p.1 0))
        = (base.take topn).map (fun p => (p.1, normFun (base.take topn) p.2)) := by
      refine List.map_congr_left fun p hp => ?_
      have hget : dget (mergeNormalize (base.take topn)) p.1 0
          = normFun (base.take topn) p.2 := by
        rw [mergeNormalize_eq_map _ hne, dget,
          dlookup_map_nodup (base.take topn) (fun q => normFun (base.take topn) q.2) hnd p hp]
        rfl
      rw [hget]
      congr 1
      ring
    have hfh : fuseHead base rr topn 0 = List.insertionSort scoreGE
        ((base.take topn).map (fun p => (p.1, normFun (base.take topn) p.2))) := by
      simp only [fuseHead]
      rw [hpre]
    rw [hfh, insertionSort_map_key (normFun (base.take topn)) (base.take topn),
      insertionSort_congr_mem _ _ _ (scoreKeyGE_normFun_iff (base.take topn)),
      List.map_map]
    exact List.map_congr_left fun p _ => rfl

unseal Rat.add Rat.sub Rat.mul Rat.inv in
/-- C5 counterexample: `base = [("a",1),("b",2),("a",3)]`, `topn = 3`,
`lam = 0`, empty reranker. The duplicate id `"a"` makes the internal score
dict collapse (`"a" ↦ 1.0`, the last binding), so the fused head order is
`a, a, b` while the stable base-score-descending sort of the head is
`a, b, a` — the claim fails as stated for arbitrary base lists. -/
theorem c5_counterexample :
    (fuseHead [("a", (1 : ℚ)), ("b", 2), ("a", 3)] (fun _ => none) 3 0).map Prod.fst
      = ["a", "a", "b"] ∧
    (List.insertionSort scoreGE ([("a", (1 : ℚ)), ("b", 2), ("a", 3)].take 3)).map Prod.fst
      = ["a", "b", "a"] ∧
    (fuseHead [("a", (1 : ℚ)), ("b", 2), ("a", 3)] (fun _ => none) 3 0).map Prod.fst
      ≠ (List.insertionSort scoreGE ([("a", (1 : ℚ)), ("b", 2), ("a", 3)].take 3)).map
          Prod.fst := by
  refine ⟨by decide, by decide, by decide⟩

unseal Rat.add Rat.sub Rat.mul Rat.inv in
/-- C5 witness: the amended theorem at `base = [("a",3),("b",1),("c",2)]`
(not presorted within the head), `topn = 3`. -/
theorem c5_witness :
    (([("a", (3 : ℚ)), ("b", 1), ("c", 2)].take 3).map Prod.fst).Nodup ∧
    (fuseHead [("a", (3 : ℚ)), ("b", 1), ("c", 2)] (fun _ => none) 3 0).map Prod.fst
      = (List.insertionSort scoreGE ([("a", (3 : ℚ)), ("b", 1), ("c", 2)].take 3)).map
          Prod.fst :=
  ⟨by decide,
    c5_lam_zero_base_order [("a", 3), ("b", 1), ("c", 2)] (fun _ => none) 3 (by decide)⟩

theorem scan_cons_shape_false {α : Type} (mk : Tok → ℕ → ℚ → α) (l : List Tok)
    (rest : List (List Tok)) (n : ℕ) (acc : List (Tok × List α))
    (h : lineShapeOk l = false) :
    scanTrec mk (l :: rest) n acc = .error (.malformed n "cols") ∨
    scanTrec mk (l :: rest) n acc = .error (.malformed n "q0") := by
  rcases l with _ | ⟨t1, _ | ⟨t2, _ | ⟨t3, _ | ⟨t4, _ | ⟨t5, _ | ⟨t6, _ | ⟨t7, tr⟩⟩⟩⟩⟩⟩⟩
  · exact Or.inl rfl
  · exact Or.inl rfl
  · exact Or.inl rfl
  · exact Or.inl rfl
  · exact Or.inl rfl
  · exact Or.inl rfl
  · refine Or.inr ?_
    have hne : ¬ t2 = Tok.str "Q0" := by
      simpa [lineShapeOk] using h
    simp [scanTrec, hne]
  · exact Or.inl rfl

theorem scan_cons_num_false {α : Type} (mk : Tok → ℕ → ℚ → α) (l : List Tok)
    (rest : List (List Tok)) (n : ℕ) (acc : List (Tok × List α))
    (hs : lineShapeOk l = true) (hn : lineNumOk l = false) :
    scanTrec mk (l :: rest) n acc = .error (.badNumber n) := by
  rcases l with _ | ⟨t1, _ | ⟨t2, _ | ⟨t3, _ | ⟨t4, _ | ⟨t5, _ | ⟨t6, _ | ⟨t7, tr⟩⟩⟩⟩⟩⟩⟩ <;>
    simp [lineShapeOk] at hs
  have ht2 : t2 = Tok.str "Q0" := hs
  simp only [lineNumOk, Bool.and_eq_false_iff] at hn
  rcases hn with hn | hn
  · have : t4.toNat? = none := Option.not_isSome_iff_eq_none.1 (by simp [hn])
    cases hq : t5.toQ? <;> simp [scanTrec, ht2, this, hq]
  · have : t5.toQ? = none := Option.not_isSome_iff_eq_none.1 (by simp [hn])
    cases hq : t4.toNat? <;> simp [scanTrec, ht2, this, hq]

theorem scan_cons_wf {α : Type} (mk : Tok → ℕ → ℚ → α) (l : List Tok)
    (rest : List (List Tok)) (n : ℕ) (acc : List (Tok × List α))
    (h : wfLine l = true) :
    ∃ qid docid r s, scanTrec mk (l :: rest) n acc
      = scanTrec mk rest (n + 1) (groupAdd acc qid (mk docid r s)) := by
  rcases l with _ | ⟨t1, _ | ⟨t2, _ | ⟨t3, _ | ⟨t4, _ | ⟨t5, _ | ⟨t6, _ | ⟨t7, tr⟩⟩⟩⟩⟩⟩⟩ <;>
    simp [wfLine, lineShapeOk, lineNumOk] at h
  obtain ⟨ht2, hr, hq⟩ := h
  obtain ⟨r, hr⟩ := Option.isSome_iff_exists.1 hr
  obtain ⟨s, hq⟩ := Option.isSome_iff_exists.1 hq
  exact ⟨t1, t3, r, s, by simp [scanTrec, ht2, hr, hq]⟩

theorem scan_malformed_names {α : Type} (mk : Tok → ℕ → ℚ → α) :
    ∀ (lines : List (List Tok)) (n : ℕ) (acc : List (Tok × List α)) (m : ℕ) (r : String),
      scanTrec mk lines n acc = .error (.malformed m r) →
      n ≤ m ∧ ∃ l, lines[m - n]? = some l ∧ lineShapeOk l = false := by
  intro lines
  induction lines with
  | nil => intro n acc m r h; cases h
  | cons l rest ih =>
    intro n acc m r h
    by_cases hsh : lineShapeOk l = true
    · by_cases hn : lineNumOk l = true
      · obtain ⟨qid, docid, r', s', hstep⟩ :=
          scan_cons_wf mk l rest n acc (by simp [wfLine, hsh, hn])
        rw [hstep] at h
        obtain ⟨hle, l', hl', hbad⟩ := ih (n + 1) _ m r h
        refine ⟨by omega, l', ?_, hbad⟩
        have hmn : m - n = (m - (n + 1)) + 1 := by omega
        rw [hmn, List.getElem?_cons_succ]
        exact hl'
      · rw [scan_cons_num_false mk l rest n acc hsh (by simpa using hn)] at h
        cases h
    · have hsh' : lineShapeOk l = false := by simpa using hsh
      rcases scan_cons_shape_false mk l rest n acc hsh' with he | he <;>
        rw [he] at h <;>
        [skip; skip] <;>
        · have hmn : m = n := by
            injection h with h'
            injection h' with h1 h2
            omega
          exact ⟨le_of_eq hmn.symm, l, by simp [hmn], hsh'⟩

theorem scan_malformed_of_bad {α : Type} (mk : Tok → ℕ → ℚ → α) :
    ∀ (lines : List (List Tok)) (n : ℕ) (acc : List (Tok × List α)),
      (∀ l ∈ lines, lineShapeOk l = true → lineNumOk l = true) →
      (∃ l ∈ lines, lineShapeOk l = false) →
      ∃ m r, scanTrec mk lines n acc = .error (.malformed m r) := by
  intro lines
  induction lines with
  | nil => intro n acc _ hbad; obtain ⟨l, hl, _⟩ := hbad; cases hl
  | cons l rest ih =>
    intro n acc hnum hbad
    by_cases hsh : lineShapeOk l = true
    · have hn := hnum l (List.mem_cons_self l rest) hsh
      obtain ⟨qid, docid, r', s', hstep⟩ :=
        scan_cons_wf mk l rest n acc (by simp [wfLine, hsh, hn])
      rw [hstep]
      refine ih (n + 1) _ (fun x hx => hnum x (List.mem_cons_of_mem l hx)) ?_
      obtain ⟨l', hl', hbad'⟩ := hbad
      rcases List.mem_cons.1 hl' with rfl | hmem
      · rw [hsh] at hbad'; cases hbad'
      · exact ⟨l', hmem, hbad'⟩
    · have hsh' : lineShapeOk l = false := by simpa using hsh
      rcases scan_cons_shape_false mk l rest n acc hsh' with he | he <;>
        exact ⟨n, _, he⟩

theorem scan_ok_of_wf {α : Type} (mk : Tok → ℕ → ℚ → α) :
    ∀ (lines : List (List Tok)) (n : ℕ) (acc : List (Tok × List α)),
      (∀ l ∈ lines, wfLine l = true) →
      ∃ gs, scanTrec mk lines n acc = .ok gs := by
  intro lines
  induction lines with
  | nil => intro n acc _; exact ⟨acc, rfl⟩
  | cons l rest ih =>
    intro n acc hwf
    obtain ⟨qid, docid, r', s', hstep⟩ :=
      scan_cons_wf mk l rest n acc (hwf l (List.mem_cons_self l rest))
    rw [hstep]
    exact ih (n + 1) _ fun x hx => hwf x (List.mem_cons_of_mem l hx)

theorem read_error_iff (lines : List (List Tok)) (e : RunFileError) :
    read_trec_run lines = .error e ↔
      scanTrec (fun d r s => (r, d, s)) lines 1 [] = .error e := by
  unfold read_trec_run
  cases hs : scanTrec (fun d r s => (r, d, s)) lines 1 [] with
  | error e' => simp
  | ok gs => simp

/-- C8 (amended): parse fails with a `MalformedLine` error (naming the
offending line number) iff some line of the input — empty lines included,
which split into zero fields — does not split into exactly 6 fields or has a
second field other than `Q0`; this holds under the side condition that
6-field `Q0` lines carry numeric rank and score fields (otherwise `int()` /
`float()` raise a different, untyped error first). An input all of whose
lines are well-formed in this sense parses successfully. (The original
claim's "non-empty line" scoping fails: the code never skips empty lines —
see the counterexample.) -/
theorem c8_parse_malformed (lines : List (List Tok))
    (hnum : ∀ l ∈ lines, lineShapeOk l = true → lineNumOk l = true) :
    ((∃ m r, read_trec_run lines = .error (.malformed m r)) ↔
      ∃ l ∈ lines, lineShapeOk l = false) ∧
    (∀ m r, read_trec_run lines = .error (.malformed m r) →
      ∃ l, lines[m - 1]? = some l ∧ lineShapeOk l = false) ∧
    ((∀ l ∈ lines, lineShapeOk l = true) → ∃ p, read_trec_run lines = .ok p) := by
  refine ⟨⟨?_, ?_⟩, ?_, ?_⟩
  · rintro ⟨m, r, h⟩
    obtain ⟨-, l, hl, hbad⟩ :=
      scan_malformed_names _ lines 1 [] m r ((read_error_iff lines _).1 h)
    exact ⟨l, List.getElem?_mem hl, hbad⟩
  · rintro ⟨l, hl, hbad⟩
    obtain ⟨m, r, h⟩ := scan_malformed_of_bad _ lines 1 [] hnum ⟨l, hl, hbad⟩
    exact ⟨m, r, (read_error_iff lines _).2 h⟩
  · intro m r h
    obtain ⟨-, l, hl, hbad⟩ :=
      scan_malformed_names _ lines 1 [] m r ((read_error_iff lines _).1 h)
    exact ⟨l, hl, hbad⟩
  · intro hshape
    obtain ⟨gs, hgs⟩ := scan_ok_of_wf (fun d r s => (r, d, s)) lines 1 []
      (fun l hl => by simp [wfLine, hshape l hl, hnum l hl (hshape l hl)])
    refine ⟨gs.map fun g => (g.1, (List.insertionSort rankLE g.2).map fun t => (t.2.1, t.2.2)), ?_⟩
    unfold read_trec_run
    rw [hgs]

unseal Rat.add Rat.sub Rat.mul Rat.inv in
/-- C8 counterexample: an input whose only non-empty line is perfectly
well-formed, plus one empty line. The claim says it parses successfully; the
code raises `MalformedLine` at line 2 (an empty line strips to zero columns,
and `read_trec_run` never skips empty lines). -/
theorem c8_counterexample :
    read_trec_run
        [[Tok.nat 1, Tok.str "Q0", Tok.str "d", Tok.nat 1, Tok.q (1 / 2), Tok.str "t"], []]
      = .error (.malformed 2 "cols") ∧
    lineShapeOk [Tok.nat 1, Tok.str "Q0", Tok.str "d", Tok.nat 1, Tok.q (1 / 2), Tok.str "t"]
      = true ∧
    wfLine [Tok.nat 1, Tok.str "Q0", Tok.str "d", Tok.nat 1, Tok.q (1 / 2), Tok.str "t"]
      = true := by
  refine ⟨by decide, by decide, by decide⟩

unseal Rat.add Rat.sub Rat.mul Rat.inv in
/-- C8 witness: a fully well-formed two-line input parses successfully, via
the amended theorem. -/
theorem c8_witness :
    (∀ l ∈ [[Tok.nat 1, Tok.str "Q0", Tok.str "a", Tok.nat 1, Tok.q 2, Tok.str "t"],
        [Tok.nat 1, Tok.str "Q0", Tok.str "b", Tok.nat 2, Tok.q 1, Tok.str "t"]],
      lineShapeOk l = true → lineNumOk l = true) ∧
    ∃ p, read_trec_run
        [[Tok.nat 1, Tok.str "Q0", Tok.str "a", Tok.nat 1, Tok.q 2, Tok.str "t"],
         [Tok.nat 1, Tok.str "Q0", Tok.str "b", Tok.nat 2, Tok.q 1, Tok.str "t"]]
      = .ok p :=
  ⟨by decide,
    (c8_parse_malformed
      [[Tok.nat 1, Tok.str "Q0", Tok.str "a", Tok.nat 1, Tok.q 2, Tok.str "t"],
       [Tok.nat 1, Tok.str "Q0", Tok.str "b", Tok.nat 2, Tok.q 1, Tok.str "t"]]
      (by decide)).2.2 (by decide)⟩

theorem validateGroups_ok_iff (k : ℕ) (gs : List (Tok × List (ℕ × ℚ))) :
    (∃ ws, validateGroups k gs = .ok ws) ↔
    ∀ g ∈ gs, g.2.map Prod.fst = List.range' 1 g.2.length ∧
      hasIncrease (g.2.map Prod.snd) = false := by
  induction gs with
  | nil => simp [validateGroups]
  | cons g rest ih =>
    obtain ⟨q, lst⟩ := g
    constructor
    · rintro ⟨ws, hws⟩
      by_cases hrk : lst.map Prod.fst = List.range' 1 lst.length
      · by_cases hinc : hasIncrease (lst.map Prod.snd) = true
        · rw [validateGroups, if_pos hrk, if_pos hinc] at hws
          cases hws
        · have hinc' : hasIncrease (lst.map Prod.snd) = false := by simpa using hinc
          rw [validateGroups, if_pos hrk, if_neg hinc] at hws
          cases hrec : validateGroups k rest with
          | error e => rw [hrec] at hws; cases hws
          | ok ws' =>
            intro g' hg'
            rcases List.mem_cons.1 hg' with rfl | hmem
            · exact ⟨hrk, hinc'⟩
            · exact ih.1 ⟨ws', hrec⟩ g' hmem
      · rw [validateGroups, if_neg hrk] at hws
        cases hws
    · intro hall
      obtain ⟨hrk, hinc⟩ := hall (q, lst) (List.mem_cons_self _ rest)
      obtain ⟨ws', hrec⟩ := ih.2 fun g' hg' => hall g' (List.mem_cons_of_mem _ hg')
      refine ⟨(if lst.length ≠ k then [q] else []) ++ ws', ?_⟩
      rw [validateGroups, if_pos hrk, if_neg (by simp [hinc]), hrec]

theorem validateGroups_error_kind (k : ℕ) (gs : List (Tok × List (ℕ × ℚ)))
    (e : RunFileError) (h : validateGroups k gs = .error e) :
    (∃ q, e = RunFileError.rankSeq q) ∨ (∃ q, e = RunFileError.scoreOrder q) := by
  induction gs with
  | nil => cases h
  | cons g rest ih =>
    obtain ⟨q, lst⟩ := g
    by_cases hrk : lst.map Prod.fst = List.range' 1 lst.length
    · by_cases hinc : hasIncrease (lst.map Prod.snd) = true
      · rw [validateGroups, if_pos hrk, if_pos hinc] at h
        injection h with h'
        exact Or.inr ⟨q, h'.symm⟩
      · rw [validateGroups, if_pos hrk, if_neg hinc] at h
        cases hrec : validateGroups k rest with
        | error e' =>
          rw [hrec] at h
          injection h with h'
          rw [h'] at hrec
          exact ih hrec
        | ok ws' => rw [hrec] at h; cases h
    · rw [validateGroups, if_neg hrk] at h
      injection h with h'
      exact Or.inl ⟨q, h'.symm⟩

theorem validateGroups_warnings (k : ℕ) (gs : List (Tok × List (ℕ × ℚ)))
    (ws : List Tok) (h : validateGroups k gs = .ok ws) :
    ws = (gs.filter fun g => decide (g.2.length ≠ k)).map Prod.fst := by
  induction gs generalizing ws with
  | nil =>
    injection h with h'
    simp [← h']
  | cons g rest ih =>
    obtain ⟨q, lst⟩ := g
    by_cases hrk : lst.map Prod.fst = List.range' 1 lst.length
    · by_cases hinc : hasIncrease (lst.map Prod.snd) = true
      · rw [validateGroups, if_pos hrk, if_pos hinc] at h
        cases h
      · rw [validateGroups, if_pos hrk, if_neg hinc] at h
        cases hrec : validateGroups k rest with
        | error e' => rw [hrec] at h; cases h
        | ok ws' =>
          rw [hrec] at h
          injection h with h'
          subst h'
          rw [ih ws' hrec]
          by_cases hk : lst.length ≠ k
          · rw [if_pos hk, List.filter_cons, if_pos (by simpa using hk)]
            rfl
          · rw [if_neg hk, List.filter_cons, if_neg (by simpa using hk)]
            rfl
    · rw [validateGroups, if_neg hrk] at h
      cases h

theorem validate_eq_of_scan (lines : List (List Tok)) (k : ℕ)
    (gs : List (Tok × List (ℕ × ℚ)))
    (h : scanTrec (fun _ r s => (r, s)) lines 1 [] = .ok gs) :
    validate_run_file lines k = validateGroups k gs := by
  unfold validate_run_file
  rw [h]

/-- C7 (confirmed): on an input of well-formed lines, `validate_run_file`
succeeds iff for every query the file-order ranks are exactly `1..count` and
no adjacent score strictly increases; every possible fatal error is a
`RankSequenceError` or a `ScoreOrderError`; and a per-query count different
from `expected_k` never raises — it only lands the qid in the returned
warning list while validation of the remaining queries continues. -/
theorem c7_validate_spec (lines : List (List Tok)) (k : ℕ)
    (hwf : ∀ l ∈ lines, wfLine l = true) :
    ∃ gs, scanTrec (fun _ r s => (r, s)) lines 1 [] = .ok gs ∧
      ((∃ ws, validate_run_file lines k = .ok ws) ↔
        ∀ g ∈ gs, g.2.map Prod.fst = List.range' 1 g.2.length ∧
          hasIncrease (g.2.map Prod.snd) = false) ∧
      (∀ e, validate_run_file lines k = .error e →
        (∃ q, e = RunFileError.rankSeq q) ∨ (∃ q, e = RunFileError.scoreOrder q)) ∧
      (∀ ws, validate_run_file lines k = .ok ws →
        ws = (gs.filter fun g => decide (g.2.length ≠ k)).map Prod.fst) := by
  obtain ⟨gs, hgs⟩ := scan_ok_of_wf _ lines 1 [] hwf
  have hval := validate_eq_of_scan lines k gs hgs
  exact ⟨gs, hgs, by rw [hval]; exact validateGroups_ok_iff k gs,
    fun e he => validateGroups_error_kind k gs e (by rw [← hval]; exact he),
    fun ws hws => validateGroups_warnings k gs ws (by rw [← hval]; exact hws)⟩

unseal Rat.add Rat.sub Rat.mul Rat.inv in
/-- C7 witness: a two-line single-query run with contiguous ranks and
non-increasing scores validates successfully via the theorem. -/
theorem c7_witness :
    (∀ l ∈ [[Tok.nat 1, Tok.str "Q0", Tok.str "a", Tok.nat 1, Tok.q 2, Tok.str "t"],
        [Tok.nat 1, Tok.str "Q0", Tok.str "b", Tok.nat 2, Tok.q 1, Tok.str "t"]],
      wfLine l = true) ∧
    ∃ ws, validate_run_file
        [[Tok.nat 1, Tok.str "Q0", Tok.str "a", Tok.nat 1, Tok.q 2, Tok.str "t"],
         [Tok.nat 1, Tok.str "Q0", Tok.str "b", Tok.nat 2, Tok.q 1, Tok.str "t"]] 2
      = .ok ws := by
  refine ⟨by decide, ?_⟩
  obtain ⟨gs, hgs, hiff, -, -⟩ := c7_validate_spec
    [[Tok.nat 1, Tok.str "Q0", Tok.str "a", Tok.nat 1, Tok.q 2, Tok.str "t"],
     [Tok.nat 1, Tok.str "Q0", Tok.str "b", Tok.nat 2, Tok.q 1, Tok.str "t"]] 2
    (by decide)
  have hconc : scanTrec (fun _ r s => (r, s))
      [[Tok.nat 1, Tok.str "Q0", Tok.str "a", Tok.nat 1, Tok.q 2, Tok.str "t"],
       [Tok.nat 1, Tok.str "Q0", Tok.str "b", Tok.nat 2, Tok.q 1, Tok.str "t"]] 1 []
      = .ok [(Tok.nat 1, [(1, (2 : ℚ)), (2, 1)])] := by decide
  rw [hconc] at hgs
  injection hgs with h'
  subst h'
  exact hiff.2 (by decide)

theorem scan_error_indep {α β : Type} (mk₁ : Tok → ℕ → ℚ → α) (mk₂ : Tok → ℕ → ℚ → β) :
    ∀ (lines : List (List Tok)) (n : ℕ) acc₁ acc₂ (e : RunFileError),
      scanTrec mk₁ lines n acc₁ = .error e → scanTrec mk₂ lines n acc₂ = .error e := by
  intro lines
  induction lines with
  | nil => intro n a1 a2 e h; cases h
  | cons l rest ih =>
    intro n a1 a2 e h
    by_cases hsh : lineShapeOk l = true
    · by_cases hn : lineNumOk l = true
      · obtain ⟨q1, d1, r1, s1, hs1⟩ :=
          scan_cons_wf mk₁ l rest n a1 (by simp [wfLine, hsh, hn])
        obtain ⟨q2, d2, r2, s2, hs2⟩ :=
          scan_cons_wf mk₂ l rest n a2 (by simp [wfLine, hsh, hn])
        rw [hs1] at h
        rw [hs2]
        exact ih (n + 1) _ _ e h
      · rw [scan_cons_num_false mk₁ l rest n a1 hsh (by simpa using hn)] at h
        injection h with h'
        rw [scan_cons_num_false mk₂ l rest n a2 hsh (by simpa using hn), h']
    · have hsh' : lineShapeOk l = false := by simpa using hsh
      rcases l with _ | ⟨t1, _ | ⟨t2, _ | ⟨t3, _ | ⟨t4, _ | ⟨t5, _ | ⟨t6, _ | ⟨t7, tr⟩⟩⟩⟩⟩⟩⟩
      · simp only [scanTrec] at h ⊢; injection h with h'; rw [h']
      · simp only [scanTrec] at h ⊢; injection h with h'; rw [h']
      · simp only [scanTrec] at h ⊢; injection h with h'; rw [h']
      · simp only [scanTrec] at h ⊢; injection h with h'; rw [h']
      · simp only [scanTrec] at h ⊢; injection h with h'; rw [h']
      · simp only [scanTrec] at h ⊢; injection h with h'; rw [h']
      · have hne : ¬ t2 = Tok.str "Q0" := by simpa [lineShapeOk] using hsh'
        simp only [scanTrec, if_neg hne] at h ⊢
        injection h with h'
        rw [h']
      · simp only [scanTrec] at h ⊢; injection h with h'; rw [h']

theorem validateGroups_rankSeq (k : ℕ) (gs : List (Tok × List (ℕ × ℚ)))
    (hmono : ∀ g ∈ gs, g.2.map Prod.fst = List.range' 1 g.2.length →
      hasIncrease (g.2.map Prod.snd) = false)
    (hbad : ∃ g ∈ gs, g.2.map Prod.fst ≠ List.range' 1 g.2.length) :
    ∃ q, validateGroups k gs = .error (RunFileError.rankSeq q) := by
  induction gs with
  | nil => obtain ⟨g, hg, _⟩ := hbad; cases hg
  | cons g rest ih =>
    obtain ⟨q, lst⟩ := g
    by_cases hrk : lst.map Prod.fst = List.range' 1 lst.length
    · have hinc := hmono (q, lst) (List.mem_cons_self _ rest) hrk
      obtain ⟨q', hq'⟩ := ih (fun g' hg' => hmono g' (List.mem_cons_of_mem _ hg'))
        (by
          rcases hbad with ⟨g', hg', hb⟩
          rcases List.mem_cons.1 hg' with rfl | hm
          · exact absurd hrk hb
          · exact ⟨g', hm, hb⟩)
      refine ⟨q', ?_⟩
      rw [validateGroups, if_pos hrk, if_neg (by simp [hinc]), hq']
    · exact ⟨q, by rw [validateGroups, if_neg hrk]⟩

/-- C10 (amended): if some query's lines are out of ascending rank order in
the file, and every query whose file-order ranks do pass the contiguity check
has non-increasing file-order scores, then `validate_run_file` raises
`RankSequenceError` — it checks contiguity in file order without re-sorting —
while `read_trec_run` accepts the very same lines (re-sorting each query by
the parsed rank field). Without the score proviso a `ScoreOrderError` on an
earlier query can be raised instead — see the counterexample. -/
theorem c10_validate_vs_parse (lines : List (List Tok)) (k : ℕ)
    (gs : List (Tok × List (ℕ × ℚ)))
    (hscan : scanTrec (fun _ r s => (r, s)) lines 1 [] = .ok gs)
    (hbad : ∃ g ∈ gs, ¬ List.Sorted (· ≤ ·) (g.2.map Prod.fst))
    (hmono : ∀ g ∈ gs, g.2.map Prod.fst = List.range' 1 g.2.length →
      hasIncrease (g.2.map Prod.snd) = false) :
    (∃ q, validate_run_file lines k = .error (RunFileError.rankSeq q)) ∧
    ∃ p, read_trec_run lines = .ok p := by
  constructor
  · rw [validate_eq_of_scan lines k gs hscan]
    apply validateGroups_rankSeq k gs hmono
    obtain ⟨g, hg, hns⟩ := hbad
    refine ⟨g, hg, fun he => hns ?_⟩
    rw [he]
    exact List.Pairwise.imp le_of_lt (List.pairwise_lt_range' 1 g.2.length)
  · cases hr : read_trec_run lines with
    | ok p => exact ⟨p, rfl⟩
    | error e =>
      have hse := (read_error_iff lines e).1 hr
      have hv := scan_error_indep (fun d r s => (r, d, s)) (fun _ r s => (r, s))
        lines 1 [] [] e hse
      rw [hscan] at hv
      cases hv

unseal Rat.add Rat.sub Rat.mul Rat.inv in
/-- C10 counterexample: a four-line file where query 1 has contiguous ranks
but strictly increasing scores (in rank order!) and query 2 has its lines out
of rank order in the file. The claim demands `RankSequenceError`; the code
iterates queries in first-occurrence order and raises `ScoreOrderError` for
query 1 first. `read_trec_run` still accepts the file and re-sorts query 2's
ranking by the parsed rank (`dD` before `dC`). -/
theorem c10_counterexample :
    scanTrec (fun _ r s => (r, s))
        [[Tok.nat 1, Tok.str "Q0", Tok.str "dA", Tok.nat 1, Tok.q (1 / 10), Tok.str "t"],
         [Tok.nat 1, Tok.str "Q0", Tok.str "dB", Tok.nat 2, Tok.q (2 / 10), Tok.str "t"],
         [Tok.nat 2, Tok.str "Q0", Tok.str "dC", Tok.nat 2, Tok.q (6 / 10), Tok.str "t"],
         [Tok.nat 2, Tok.str "Q0", Tok.str "dD", Tok.nat 1, Tok.q (7 / 10), Tok.str "t"]] 1 []
      = .ok [(Tok.nat 1, [(1, 1 / 10), (2, 2 / 10)]),
             (Tok.nat 2, [(2, 6 / 10), (1, 7 / 10)])] ∧
    ¬ List.Sorted (· ≤ ·) ([((2 : ℕ), (6 : ℚ) / 10), (1, 7 / 10)].map Prod.fst) ∧
    validate_run_file
        [[Tok.nat 1, Tok.str "Q0", Tok.str "dA", Tok.nat 1, Tok.q (1 / 10), Tok.str "t"],
         [Tok.nat 1, Tok.str "Q0", Tok.str "dB", Tok.nat 2, Tok.q (2 / 10), Tok.str "t"],
         [Tok.nat 2, Tok.str "Q0", Tok.str "dC", Tok.nat 2, Tok.q (6 / 10), Tok.str "t"],
         [Tok.nat 2, Tok.str "Q0", Tok.str "dD", Tok.nat 1, Tok.q (7 / 10), Tok.str "t"]] 2
      = .error (.scoreOrder (Tok.nat 1)) ∧
    validate_run_file
        [[Tok.nat 1, Tok.str "Q0", Tok.str "dA", Tok.nat 1, Tok.q (1 / 10), Tok.str "t"],
         [Tok.nat 1, Tok.str "Q0", Tok.str "dB", Tok.nat 2, Tok.q (2 / 10), Tok.str "t"],
         [Tok.nat 2, Tok.str "Q0", Tok.str "dC", Tok.nat 2, Tok.q (6 / 10), Tok.str "t"],
         [Tok.nat 2, Tok.str "Q0", Tok.str "dD", Tok.nat 1, Tok.q (7 / 10), Tok.str "t"]] 2
      ≠ .error (RunFileError.rankSeq (Tok.nat 2)) ∧
    read_trec_run
        [[Tok.nat 1, Tok.str "Q0", Tok.str "dA", Tok.nat 1, Tok.q (1 / 10), Tok.str "t"],
         [Tok.nat 1, Tok.str "Q0", Tok.str "dB", Tok.nat 2, Tok.q (2 / 10), Tok.str "t"],
         [Tok.nat 2, Tok.str "Q0", Tok.str "dC", Tok.nat 2, Tok.q (6 / 10), Tok.str "t"],
         [Tok.nat 2, Tok.str "Q0", Tok.str "dD", Tok.nat 1, Tok.q (7 / 10), Tok.str "t"]]
      = .ok [(Tok.nat 1, [(Tok.str "dA", 1 / 10), (Tok.str "dB", 2 / 10)]),
             (Tok.nat 2, [(Tok.str "dD", 7 / 10), (Tok.str "dC", 6 / 10)])] := by
  refine ⟨by decide, by decide, by decide, by decide, by decide⟩

unseal Rat.add Rat.sub Rat.mul Rat.inv in
/-- C10 witness: a single query whose two lines appear in descending rank
order; validate raises `RankSequenceError` while parse accepts, via the
amended theorem. -/
theorem c10_witness :
    scanTrec (fun _ r s => (r, s))
        [[Tok.nat 7, Tok.str "Q0", Tok.str "a", Tok.nat 2, Tok.q 1, Tok.str "t"],
         [Tok.nat 7, Tok.str "Q0", Tok.str "b", Tok.nat 1, Tok.q 2, Tok.str "t"]] 1 []
      = .ok [(Tok.nat 7, [(2, (1 : ℚ)), (1, 2)])] ∧
    ((∃ q, validate_run_file
        [[Tok.nat 7, Tok.str "Q0", Tok.str "a", Tok.nat 2, Tok.q 1, Tok.str "t"],
         [Tok.nat 7, Tok.str "Q0", Tok.str "b", Tok.nat 1, Tok.q 2, Tok.str "t"]] 3
      = .error (RunFileError.rankSeq q)) ∧
    ∃ p, read_trec_run
        [[Tok.nat 7, Tok.str "Q0", Tok.str "a", Tok.nat 2, Tok.q 1, Tok.str "t"],
         [Tok.nat 7, Tok.str "Q0", Tok.str "b", Tok.nat 1, Tok.q 2, Tok.str "t"]]
      = .ok p) :=
  ⟨by decide,
    c10_validate_vs_parse
      [[Tok.nat 7, Tok.str "Q0", Tok.str "a", Tok.nat 2, Tok.q 1, Tok.str "t"],
       [Tok.nat 7, Tok.str "Q0", Tok.str "b", Tok.nat 1, Tok.q 2, Tok.str "t"]] 3
      [(Tok.nat 7, [(2, 1), (1, 2)])] (by decide) (by decide) (by decide)⟩

theorem groupAdd_notMem {α : Type} (acc : List (Tok × List α)) (k : Tok) (v : α)
    (h : k ∉ acc.map Prod.fst) : groupAdd acc k v = acc ++ [(k, [v])] := by
  induction acc with
  | nil => rfl
  | cons g rest ih =>
    obtain ⟨k', vs⟩ := g
    simp only [List.map_cons, List.mem_cons] at h
    push_neg at h
    rw [groupAdd, if_neg fun he => h.1 he.symm, ih h.2, List.cons_append]

theorem groupAdd_last {α : Type} (acc0 : List (Tok × List α)) (k : Tok)
    (ts : List α) (v : α) (h : k ∉ acc0.map Prod.fst) :
    groupAdd (acc0 ++ [(k, ts)]) k v = acc0 ++ [(k, ts ++ [v])] := by
  induction acc0 with
  | nil => simp [groupAdd]
  | cons g rest ih =>
    obtain ⟨k', vs⟩ := g
    simp only [List.map_cons, List.mem_cons] at h
    push_neg at h
    rw [List.cons_append, groupAdd, if_neg fun he => h.1 he.symm, ih h.2,
      List.cons_append]

theorem scan_block (q : ℕ) (tag : String) (rest : List (List Tok)) :
    ∀ (hits : List (String × ℚ)) (k n : ℕ)
      (acc0 : List (Tok × List (ℕ × Tok × ℚ))) (ts : List (ℕ × Tok × ℚ)),
      Tok.nat q ∉ acc0.map Prod.fst →
      scanTrec (fun d r s => (r, d, s))
        (((List.enumFrom k hits).map fun e => formatRecord q tag e.1 e.2.1 e.2.2) ++ rest)
        n (acc0 ++ [(Tok.nat q, ts)])
      = scanTrec (fun d r s => (r, d, s)) rest (n + hits.length)
          (acc0 ++ [(Tok.nat q, ts ++ blockTriples hits k)]) := by
  intro hits
  induction hits with
  | nil => intro k n acc0 ts _; simp [blockTriples]
  | cons p hs ih =>
    intro k n acc0 ts h
    rw [List.enumFrom_cons, List.map_cons, List.cons_append]
    have hstep : scanTrec (fun d r s => (r, d, s))
        (formatRecord q tag k p.1 p.2 ::
          (((List.enumFrom (k + 1) hs).map fun e => formatRecord q tag e.1 e.2.1 e.2.2) ++ rest))
        n (acc0 ++ [(Tok.nat q, ts)])
        = scanTrec (fun d r s => (r, d, s))
            (((List.enumFrom (k + 1) hs).map fun e => formatRecord q tag e.1 e.2.1 e.2.2) ++ rest)
            (n + 1)
            (groupAdd (acc0 ++ [(Tok.nat q, ts)]) (Tok.nat q) (k, Tok.str p.1, round6 p.2)) := by
      simp [scanTrec, formatRecord, Tok.toNat?, Tok.toQ?]
    rw [hstep, groupAdd_last acc0 (Tok.nat q) ts _ h,
      ih (k + 1) (n + 1) acc0 (ts ++ [(k, Tok.str p.1, round6 p.2)]) h]
    have harith : n + 1 + hs.length = n + (p :: hs).length := by
      simp [List.length_cons]
      omega
    have happ : (ts ++ [(k, Tok.str p.1, round6 p.2)]) ++ blockTriples hs (k + 1)
        = ts ++ blockTriples (p :: hs) k := by
      simp [blockTriples, List.enumFrom_cons, List.append_assoc]
    rw [harith, happ]

theorem scan_blocks (tag : String) :
    ∀ (gl : List (ℕ × List (String × ℚ))) (n : ℕ)
      (acc : List (Tok × List (ℕ × Tok × ℚ))),
      (gl.map Prod.fst).Nodup →
      (∀ g ∈ gl, Tok.nat g.1 ∉ acc.map Prod.fst) →
      scanTrec (fun d r s => (r, d, s))
        (gl.flatMap fun g =>
          (List.enumFrom 1 g.2).map fun e => formatRecord g.1 tag e.1 e.2.1 e.2.2)
        n acc
      = .ok (acc ++ (gl.filter fun g => !g.2.isEmpty).map
          fun g => (Tok.nat g.1, blockTriples g.2 1)) := by
  intro gl
  induction gl with
  | nil => intro n acc _ _; simp [scanTrec]
  | cons g gl' ih =>
    intro n acc hnd hdisj
    obtain ⟨q, hits⟩ := g
    simp only [List.map_cons, List.nodup_cons] at hnd
    rw [List.flatMap_cons]
    cases hits with
    | nil =>
      simp only [List.enumFrom_nil, List.map_nil, List.nil_append]
      rw [ih n acc hnd.2 fun g' hg' => hdisj g' (List.mem_cons_of_mem _ hg')]
      simp [List.filter_cons]
    | cons p hs =>
      rw [List.enumFrom_cons, List.map_cons, List.cons_append]
      have hstep : scanTrec (fun d r s => (r, d, s))
          (formatRecord q tag 1 p.1 p.2 ::
            (((List.enumFrom 2 hs).map fun e => formatRecord q tag e.1 e.2.1 e.2.2) ++
              (gl'.flatMap fun g =>
                (List.enumFrom 1 g.2).map fun e => formatRecord g.1 tag e.1 e.2.1 e.2.2)))
          n acc
          = scanTrec (fun d r s => (r, d, s))
              (((List.enumFrom 2 hs).map fun e => formatRecord q tag e.1 e.2.1 e.2.2) ++
                (gl'.flatMap fun g =>
                  (List.enumFrom 1 g.2).map fun e => formatRecord g.1 tag e.1 e.2.1 e.2.2))
              (n + 1)
              (groupAdd acc (Tok.nat q) (1, Tok.str p.1, round6 p.2)) := by
        simp [scanTrec, formatRecord, Tok.toNat?, Tok.toQ?]
      have hq := hdisj (q, p :: hs) (List.mem_cons_self _ gl')
      rw [hstep, groupAdd_notMem acc (Tok.nat q) _ hq,
        scan_block q tag _ hs 2 (n + 1) acc [(1, Tok.str p.1, round6 p.2)] hq]
      have hblk : [(1, Tok.str p.1, round6 p.2)] ++ blockTriples hs 2
          = blockTriples (p :: hs) 1 := by
        simp [blockTriples, List.enumFrom_cons]
      rw [hblk]
      rw [ih (n + 1 + hs.length) (acc ++ [(Tok.nat q, blockTriples (p :: hs) 1)]) hnd.2 ?hdisj']
      case hdisj' =>
        intro g' hg'
        simp only [List.map_append, List.map_cons, List.map_nil, List.mem_append,
          List.mem_cons, List.not_mem_nil]
        rintro (hin | hkey | hfalse)
        · exact hdisj g' (List.mem_cons_of_mem _ hg') hin
        · have : g'.1 = q := Tok.nat.inj hkey
          exact hnd.1 (this ▸ List.mem_map_of_mem Prod.fst hg')
        · exact hfalse
      rw [List.filter_cons]
      simp only [List.isEmpty_cons, Bool.not_false, if_pos]
      rw [List.map_cons, List.append_assoc]
      rfl

theorem enumFrom_fst_lt {α : Type} (l : List α) :
    ∀ k, List.Pairwise (fun a b => a.1 < b.1) (List.enumFrom k l) := by
  induction l with
  | nil => intro k; simp
  | cons x t ih =>
    intro k
    rw [List.enumFrom_cons]
    refine List.Pairwise.cons ?_ (ih (k + 1))
    rintro ⟨i, y⟩ hmem
    have := (List.mem_enumFrom hmem).1
    omega

theorem sorted_blockTriples (hits : List (String × ℚ)) (k : ℕ) :
    List.Sorted rankLE (blockTriples hits k) :=
  List.Pairwise.map _ (fun _ _ hab => le_of_lt hab) (enumFrom_fst_lt hits k)

theorem blockTriples_proj (hits : List (String × ℚ)) :
    ∀ k, (blockTriples hits k).map (fun t => (t.2.1, t.2.2)) = tokHits hits := by
  induction hits with
  | nil => intro k; rfl
  | cons p hs ih =>
    intro k
    simp only [blockTriples, tokHits, List.enumFrom_cons, List.map_cons] at ih ⊢
    rw [← ih (k + 1)]

theorem flatMap_congr {α β : Type} (l : List α) (F G : α → List β)
    (h : ∀ g ∈ l, F g = G g) : l.flatMap F = l.flatMap G := by
  induction l with
  | nil => rfl
  | cons a t ih =>
    rw [List.flatMap_cons, List.flatMap_cons, h a (List.mem_cons_self a t),
      ih fun g hg => h g (List.mem_cons_of_mem a hg)]

theorem flatMap_filter_keep {α β : Type} (l : List α) (pred : α → Bool)
    (F : α → List β) (h : ∀ g, pred g = false → F g = []) :
    (l.filter pred).flatMap F = l.flatMap F := by
  induction l with
  | nil => rfl
  | cons a t ih =>
    rw [List.filter_cons]
    by_cases hp : pred a = true
    · rw [if_pos hp, List.flatMap_cons, List.flatMap_cons, ih]
    · have hp' : pred a = false := by simpa using hp
      rw [if_neg (by simp [hp']), List.flatMap_cons, h a hp', List.nil_append, ih]

/-- C6 (confirmed): for a `RunSet` (unique query ids), parsing the text
produced by the writer succeeds and yields exactly the expected run set: the
queries in ascending qid order with each score rounded to 6 decimals
(queries with an empty ranking emit no lines and so do not reappear); the
multiset of `(query_id, document_id, rank)` triples is exactly that of the
original run set; and every query with a nonempty ranking reappears with its
document order intact and scores equal to the original up to 6-decimal
rounding. -/
theorem c6_round_trip (rankings : List (ℕ × List (String × ℚ))) (tag : String)
    (hnd : (rankings.map Prod.fst).Nodup) :
    read_trec_run (write_trec_run rankings tag) = .ok (expectedParse rankings) ∧
    (parsedTriples (expectedParse rankings) : Multiset (Tok × Tok × ℕ))
      = (origTriples rankings : Multiset (Tok × Tok × ℕ)) ∧
    ∀ g ∈ rankings, (Tok.nat g.1, tokHits g.2) ∈ expectedParse rankings ∨ g.2 = [] := by
  have hperm := List.perm_insertionSort qidLE rankings
  refine ⟨?_, ?_, ?_⟩
  · have hnd' : ((List.insertionSort qidLE rankings).map Prod.fst).Nodup :=
      ((hperm.map Prod.fst).nodup_iff).2 hnd
    have hscan := scan_blocks tag (List.insertionSort qidLE rankings) 1 [] hnd'
      (by simp)
    unfold read_trec_run write_trec_run
    rw [hscan]
    simp only [List.nil_append, List.map_map]
    unfold expectedParse
    refine congrArg Except.ok (List.map_congr_left fun g _ => ?_)
    simp only [Function.comp]
    rw [(sorted_blockTriples g.2 1).insertionSort_eq, blockTriples_proj]
  · rw [Multiset.coe_eq_coe]
    have e1 : parsedTriples (expectedParse rankings)
        = ((List.insertionSort qidLE rankings).filter fun g => !g.2.isEmpty).flatMap
            fun g => (List.enumFrom 1 g.2).map fun e => (Tok.nat g.1, Tok.str e.2.1, e.1) := by
      unfold parsedTriples expectedParse
      rw [List.flatMap_map]
      refine flatMap_congr _ _ _ fun g _ => ?_
      unfold tokHits
      rw [List.enumFrom_map, List.map_map]
      refine List.map_congr_left fun e _ => ?_
      rfl
    rw [e1, flatMap_filter_keep _ _ _ ?hempty]
    case hempty =>
      intro g hg
      have hE : g.2 = [] := List.isEmpty_iff.1 (by simpa using hg)
      simp [hE]
    exact hperm.flatMap_right _
  · intro g hg
    by_cases hE : g.2 = []
    · exact Or.inr hE
    · refine Or.inl (List.mem_map.2 ⟨g, List.mem_filter.2 ⟨hperm.mem_iff.2 hg, ?_⟩, rfl⟩)
      simp [hE]

unseal Rat.add Rat.sub Rat.mul Rat.inv in
/-- C6 witness: a two-query run set (queries supplied out of numeric order)
round-trips to its expected parse. -/
theorem c6_witness :
    (([(2, [("d2", (1 : ℚ) / 4)]), (1, [("d1", 1 / 2)])].map Prod.fst).Nodup) ∧
    read_trec_run (write_trec_run [(2, [("d2", (1 : ℚ) / 4)]), (1, [("d1", 1 / 2)])] "t")
      = .ok (expectedParse [(2, [("d2", (1 : ℚ) / 4)]), (1, [("d1", 1 / 2)])]) :=
  ⟨by decide,
    (c6_round_trip [(2, [("d2", (1 : ℚ) / 4)]), (1, [("d1", 1 / 2)])] "t" (by decide)).1⟩
